import Mathlib

/-!
Verification development for the gateway's core components: the decimal
amount codec, the transaction poll state machine, the balance resolver,
the chain instance registry, and the generic network routes.

The repository's provided sources are the Algorand endpoint test suite and
the network route wiring.  The chain-side implementations (codec, poll,
balances, registry, status) are not among the provided sources, so they are
modelled from the specification, constrained by the observable behaviour
pinned down in the test suite.
-/

namespace Gateway

/-- Modelled from the spec: little-endian base-10 digit extraction used by
the Decimal Amount Codec (the codec's implementation file is missing from
the provided sources; only its tests are present).  The first argument is
structural fuel, always called with fuel at least the number. -/
def digitsAux : Nat → Nat → List Nat
  | _, 0 => []
  | 0, _ + 1 => []
  | fuel + 1, n + 1 => ((n + 1) % 10) :: digitsAux fuel ((n + 1) / 10)

/-- Little-endian base-10 digits of a natural number (empty for zero). -/
def natDigits (n : Nat) : List Nat := digitsAux n n

/-- Value of a little-endian base-10 digit list. -/
def ofDigits10 : List Nat → Nat
  | [] => 0
  | d :: ds => d + 10 * ofDigits10 ds

theorem digitsAux_sound : ∀ fuel n, n ≤ fuel → ofDigits10 (digitsAux fuel n) = n := by
  intro fuel
  induction fuel with
  | zero =>
    intro n hn
    interval_cases n
    simp [digitsAux, ofDigits10]
  | succ fuel ih =>
    intro n hn
    match n with
    | 0 => simp [digitsAux, ofDigits10]
    | m + 1 =>
      have hdiv : (m + 1) / 10 < m + 1 := Nat.div_lt_self (by omega) (by omega)
      have : (m + 1) / 10 ≤ fuel := by omega
      simp only [digitsAux, ofDigits10]
      rw [ih _ this]
      exact Nat.mod_add_div (m + 1) 10

theorem ofDigits10_natDigits (n : Nat) : ofDigits10 (natDigits n) = n :=
  digitsAux_sound n n (Nat.le_refl n)

theorem digitsAux_lt : ∀ fuel n, ∀ d ∈ digitsAux fuel n, d < 10 := by
  intro fuel
  induction fuel with
  | zero =>
    intro n d hd
    match n with
    | 0 => simp [digitsAux] at hd
    | m + 1 => simp [digitsAux] at hd
  | succ fuel ih =>
    intro n d hd
    match n with
    | 0 => simp [digitsAux] at hd
    | m + 1 =>
      simp only [digitsAux, List.mem_cons] at hd
      rcases hd with h | h
      · subst h; exact Nat.mod_lt _ (by omega)
      · exact ih _ _ h

theorem natDigits_lt (n : Nat) : ∀ d ∈ natDigits n, d < 10 :=
  digitsAux_lt n n

theorem digitsAux_length : ∀ fuel m n, n < 10 ^ m → (digitsAux fuel n).length ≤ m := by
  intro fuel
  induction fuel with
  | zero =>
    intro m n _
    match n with
    | 0 => simp [digitsAux]
    | k + 1 => simp [digitsAux]
  | succ fuel ih =>
    intro m n hn
    match n with
    | 0 => simp [digitsAux]
    | k + 1 =>
      have hm : m ≠ 0 := by
        intro h; subst h; simp at hn
      obtain ⟨m', rfl⟩ : ∃ m', m = m' + 1 := ⟨m - 1, by omega⟩
      have hdiv : (k + 1) / 10 < 10 ^ m' := by
        have h10 : (0 : Nat) < 10 := by omega
        rw [Nat.div_lt_iff_lt_mul h10]
        calc k + 1 < 10 ^ (m' + 1) := hn
          _ = 10 ^ m' * 10 := by rw [Nat.pow_succ]
      simp only [digitsAux, List.length_cons]
      have := ih m' ((k + 1) / 10) hdiv
      omega

theorem natDigits_length {n m : Nat} (h : n < 10 ^ m) : (natDigits n).length ≤ m :=
  digitsAux_length n m n h

theorem ofDigits10_append (a b : List Nat) :
    ofDigits10 (a ++ b) = ofDigits10 a + 10 ^ a.length * ofDigits10 b := by
  induction a with
  | nil => simp [ofDigits10]
  | cons d ds ih =>
    rw [List.cons_append]
    simp only [ofDigits10, ih, List.length_cons, Nat.pow_succ]
    ring

theorem ofDigits10_replicate_zero (k : Nat) : ofDigits10 (List.replicate k 0) = 0 := by
  induction k with
  | zero => simp [ofDigits10]
  | succ k ih => simp [List.replicate, ofDigits10, ih]

/-- The character for a single decimal digit. -/
def digitChar (d : Nat) : Char := Char.ofNat (48 + d)

/-- Parse a single decimal digit character. -/
def charDigit? (c : Char) : Option Nat :=
  if c.isDigit then some (c.toNat - 48) else none

theorem charDigit?_digitChar {d : Nat} (h : d < 10) : charDigit? (digitChar d) = some d := by
  interval_cases d <;> decide

theorem digitChar_ne_dot {d : Nat} (h : d < 10) : digitChar d ≠ '.' := by
  interval_cases d <;> decide

/-- Big-endian character rendering of a natural number. -/
def natChars (n : Nat) : List Char :=
  if n = 0 then ['0'] else (natDigits n).reverse.map digitChar

/-- Parse a big-endian string of decimal digit characters. -/
def parseDigitsBE (cs : List Char) : Option Nat :=
  (cs.mapM charDigit?).map (fun ds => ofDigits10 ds.reverse)

theorem mapM_charDigit?_map_digitChar :
    ∀ l : List Nat, (∀ d ∈ l, d < 10) → (l.map digitChar).mapM charDigit? = some l := by
  intro l
  induction l with
  | nil => intro _; rfl
  | cons d ds ih =>
    intro h
    have hd : d < 10 := h d (List.mem_cons_self d ds)
    have hds : ∀ x ∈ ds, x < 10 := fun x hx => h x (List.mem_cons_of_mem d hx)
    simp only [List.map_cons, List.mapM_cons, charDigit?_digitChar hd, ih hds]
    rfl

theorem parseDigitsBE_natChars (n : Nat) : parseDigitsBE (natChars n) = some n := by
  by_cases h : n = 0
  · subst h; decide
  · simp only [natChars, if_neg h, parseDigitsBE]
    rw [mapM_charDigit?_map_digitChar _ (fun d hd => natDigits_lt n d (List.mem_reverse.mp hd))]
    simp [ofDigits10_natDigits]

/-- Modelled from the spec: the Decimal Amount Codec's encoding of a raw
integer on-chain amount into a human-readable decimal string at a given
decimal precision.  The integer part is the quotient by 10 ^ d, the
fractional part is the remainder padded to d digits with trailing zeros
stripped (9000000 at precision 6 renders as "9", 0 renders as "0"). -/
def encode (x d : Nat) : String :=
  let q := x / 10 ^ d
  let r := x % 10 ^ d
  let fracLE := natDigits r ++ List.replicate (d - (natDigits r).length) 0
  let strippedLE := fracLE.dropWhile (fun dg => dg == 0)
  if strippedLE = [] then ⟨natChars q⟩
  else ⟨natChars q ++ '.' :: strippedLE.reverse.map digitChar⟩

/-- Split a character list at the first dot, if any. -/
def splitAtDot : List Char → List Char × Option (List Char)
  | [] => ([], none)
  | c :: cs =>
    if c = '.' then ([], some cs)
    else
      let p := splitAtDot cs
      (c :: p.1, p.2)

/-- Decode from an integer part and an optional fractional part. -/
def decodeParts : List Char × Option (List Char) → Nat → Option Nat
  | (intCs, none), d => (parseDigitsBE intCs).map (fun i => i * 10 ^ d)
  | (intCs, some fracCs), d =>
    if fracCs.length ≤ d then
      match parseDigitsBE intCs, parseDigitsBE fracCs with
      | some i, some f => some (i * 10 ^ d + f * 10 ^ (d - fracCs.length))
      | _, _ => none
    else none

/-- Modelled from the spec: the Decimal Amount Codec's decoding of a decimal
string back into a raw integer amount at a given decimal precision.  Fails
on non-digit characters or a fractional part longer than the precision. -/
def decode (s : String) (d : Nat) : Option Nat :=
  decodeParts (splitAtDot s.data) d

theorem splitAtDot_no_dot : ∀ cs : List Char, '.' ∉ cs → splitAtDot cs = (cs, none) := by
  intro cs
  induction cs with
  | nil => intro _; rfl
  | cons c cs ih =>
    intro h
    have hc : c ≠ '.' := fun hcc => h (hcc ▸ List.mem_cons_self c cs)
    have hcs : '.' ∉ cs := fun hm => h (List.mem_cons_of_mem c hm)
    simp [splitAtDot, hc, ih hcs]

theorem splitAtDot_append :
    ∀ a b : List Char, '.' ∉ a → splitAtDot (a ++ '.' :: b) = (a, some b) := by
  intro a b
  induction a with
  | nil => intro _; simp [splitAtDot]
  | cons c cs ih =>
    intro h
    have hc : c ≠ '.' := fun hcc => h (hcc ▸ List.mem_cons_self c cs)
    have hcs : '.' ∉ cs := fun hm => h (List.mem_cons_of_mem c hm)
    simp [splitAtDot, hc, ih hcs]

theorem natChars_no_dot (n : Nat) : '.' ∉ natChars n := by
  by_cases h : n = 0
  · subst h; decide
  · simp only [natChars, if_neg h]
    intro hm
    obtain ⟨d, hd, hdc⟩ := List.mem_map.mp hm
    exact digitChar_ne_dot (natDigits_lt n d (List.mem_reverse.mp hd)) hdc

theorem length_dropWhile_le (p : Nat → Bool) :
    ∀ l : List Nat, (l.dropWhile p).length ≤ l.length := by
  intro l
  induction l with
  | nil => simp [List.dropWhile]
  | cons a l ih =>
    by_cases h : p a
    · simp only [List.dropWhile, h]
      exact Nat.le_trans ih (by simp)
    · simp [List.dropWhile, h]

theorem mem_dropWhile (p : Nat → Bool) :
    ∀ l : List Nat, ∀ x ∈ l.dropWhile p, x ∈ l := by
  intro l
  induction l with
  | nil => simp [List.dropWhile]
  | cons a l ih =>
    intro x hx
    by_cases h : p a
    · simp only [List.dropWhile, h] at hx
      exact List.mem_cons_of_mem a (ih x hx)
    · simp only [List.dropWhile, h] at hx
      simpa using hx

theorem ofDigits10_dropWhile_zero :
    ∀ l : List Nat,
      ofDigits10 l =
        10 ^ (l.length - (l.dropWhile (fun dg => dg == 0)).length) *
          ofDigits10 (l.dropWhile (fun dg => dg == 0)) := by
  intro l
  induction l with
  | nil => simp [List.dropWhile, ofDigits10]
  | cons a l ih =>
    by_cases h : a = 0
    · subst h
      have hle := length_dropWhile_le (fun dg => dg == 0) l
      simp only [List.dropWhile, beq_self_eq_true, List.length_cons]
      have harith :
          l.length + 1 - (l.dropWhile (fun dg => dg == 0)).length =
            (l.length - (l.dropWhile (fun dg => dg == 0)).length) + 1 := by omega
      rw [harith, Nat.pow_succ]
      simp only [ofDigits10, ih]
      ring
    · have hne : (a == 0) = false := beq_false_of_ne h
      simp [List.dropWhile, hne]

/-- C8 round-trip for the Decimal Amount Codec: decoding the encoding of any
non-negative integer x at any precision d yields x again. -/
theorem decode_encode (x d : Nat) : decode (encode x d) d = some x := by
  have hpow : (0 : Nat) < 10 ^ d := Nat.pos_pow_of_pos d (by omega)
  set q := x / 10 ^ d with hq
  set r := x % 10 ^ d with hr
  have hx : q * 10 ^ d + r = x := by
    rw [hq, hr, Nat.mul_comm]
    exact Nat.div_add_mod x (10 ^ d)
  have hrlt : r < 10 ^ d := Nat.mod_lt x hpow
  set L := natDigits r with hL
  have hLlen : L.length ≤ d := natDigits_length hrlt
  set fracLE := L ++ List.replicate (d - L.length) 0 with hfracLE
  have hfracLen : fracLE.length = d := by
    simp only [hfracLE, List.length_append, List.length_replicate]
    omega
  set S := fracLE.dropWhile (fun dg => dg == 0) with hS
  have hSlen : S.length ≤ d := hfracLen ▸ length_dropWhile_le _ fracLE
  have hval : ofDigits10 fracLE = r := by
    simp only [hfracLE, ofDigits10_append, ofDigits10_replicate_zero, Nat.mul_zero,
      Nat.add_zero, hL, ofDigits10_natDigits]
  have hstrip : ofDigits10 fracLE = 10 ^ (fracLE.length - S.length) * ofDigits10 S :=
    ofDigits10_dropWhile_zero fracLE
  have hSmem : ∀ dg ∈ S, dg < 10 := by
    intro dg hdg
    have hmem : dg ∈ fracLE := mem_dropWhile _ fracLE dg hdg
    rcases List.mem_append.mp hmem with hm | hm
    · exact natDigits_lt r dg hm
    · have : dg = 0 := List.eq_of_mem_replicate hm
      omega
  show decode (if S = [] then (⟨natChars q⟩ : String)
      else ⟨natChars q ++ '.' :: S.reverse.map digitChar⟩) d = some x
  by_cases hSnil : S = []
  · have hr0 : r = 0 := by
      rw [← hval, hstrip, hSnil]
      simp [ofDigits10]
    rw [if_pos hSnil]
    simp only [decode]
    rw [splitAtDot_no_dot (natChars q) (natChars_no_dot q)]
    simp only [decodeParts, parseDigitsBE_natChars, Option.map_some]
    rw [← hx, hr0]
    simp
  · rw [if_neg hSnil]
    simp only [decode]
    rw [splitAtDot_append (natChars q) _ (natChars_no_dot q)]
    have hfl : (S.reverse.map digitChar).length = S.length := by simp
    simp only [decodeParts]
    rw [if_pos (by rw [hfl]; exact hSlen)]
    have hparseFrac : parseDigitsBE (S.reverse.map digitChar) = some (ofDigits10 S) := by
      simp only [parseDigitsBE]
      rw [mapM_charDigit?_map_digitChar _
        (fun dg hdg => hSmem dg (List.mem_reverse.mp hdg))]
      simp
    rw [parseDigitsBE_natChars, hparseFrac, hfl]
    have hrS : r = 10 ^ (d - S.length) * ofDigits10 S := by
      rw [← hval, hstrip, hfracLen]
    show some (q * 10 ^ d + ofDigits10 S * 10 ^ (d - S.length)) = some x
    rw [show q * 10 ^ d + ofDigits10 S * 10 ^ (d - S.length) = x by
      rw [Nat.mul_comm (ofDigits10 S), ← hrS]
      exact hx]

theorem dropWhile_zero_replicate (k : Nat) :
    (List.replicate k 0).dropWhile (fun dg => dg == 0) = [] := by
  induction k with
  | zero => rfl
  | succ k ih => simp [List.replicate, List.dropWhile, ih]

/-- Encoding a zero raw amount yields the decimal zero string at every
precision. -/
theorem encode_zero (d : Nat) : encode 0 d = "0" := by
  simp only [encode, Nat.zero_div, Nat.zero_mod]
  rw [show natDigits 0 = [] from rfl]
  simp only [List.nil_append, List.length_nil, Nat.sub_zero,
    dropWhile_zero_replicate, if_pos rfl]
  rfl

/-! ## Transaction poll state machine

Modelled from the spec: the chain-side poll implementation is not among the
provided sources; only its endpoint tests are.  The primary node and the
fallback indexer are the collaborators of section 6 of the spec, and the
algorithm is the state machine of section 4.3, whose observable behaviour is
pinned by the POST poll tests. -/

/-- Canonical error kinds surfaced by the core (spec section 7). -/
inductive ErrorKind where
  | NetworkError
  | RecoverableMiss
  | HoldingNotFound
  | UnknownAsset
  | UnknownError
deriving DecidableEq

/-- Transaction payload returned by the primary node: an optional block
field (absent while the transaction is only in the mempool) and an optional
fee field. -/
structure TxPayload where
  confirmedRound : Option Nat
  fee : Option Nat
deriving DecidableEq

/-- Failure modes of the primary node's transaction query. -/
inductive NodeTxError where
  | recoverableMiss
  | networkError
  | unknownError
deriving DecidableEq

/-- Failure modes of the fallback indexer's transaction query. -/
inductive IndexerError where
  | networkError
  | unknownError
deriving DecidableEq

/-- The error kind surfaced for an indexer failure. -/
def IndexerError.toErrorKind : IndexerError → ErrorKind
  | .networkError => .NetworkError
  | .unknownError => .UnknownError

/-- Successful fallback-indexer response: the indexer's own current round,
the confirmed round of the transaction, and its fee. -/
structure IndexerTx where
  currentRound : Nat
  confirmedRound : Nat
  fee : Nat
deriving DecidableEq

/-- Result of a poll call (spec section 3). -/
structure TxPollResult where
  currentBlock : Nat
  txBlock : Option Nat
  txHash : String
  fee : Option Nat
deriving DecidableEq

/-- Modelled from the spec: the transaction poll state machine of section
4.3.  `currentBlock` is the primary node's current block, `node` the primary
node's transaction query outcome, `indexer` the fallback indexer's outcome.
The second component records whether the fallback indexer was consulted. -/
def poll (currentBlock : Nat) (txHash : String)
    (node : Except NodeTxError TxPayload)
    (indexer : Except IndexerError IndexerTx) :
    Except ErrorKind TxPollResult × Bool :=
  match node with
  | .ok p => (.ok ⟨currentBlock, p.confirmedRound, txHash, p.fee⟩, false)
  | .error .recoverableMiss =>
    match indexer with
    | .ok t => (.ok ⟨t.currentRound, some t.confirmedRound, txHash, some t.fee⟩, true)
    | .error e => (.error e.toErrorKind, true)
  | .error .networkError => (.error .NetworkError, false)
  | .error .unknownError => (.error .UnknownError, false)

/-- C1: when the primary node returns a transaction payload, poll succeeds
with the node's current block, the queried hash, the payload's block field
as txBlock (null exactly when the field is absent, the node's value when
present) and the payload's fee field, without consulting the fallback
indexer. -/
theorem poll_primary_payload (currentBlock : Nat) (txHash : String)
    (p : TxPayload) (indexer : Except IndexerError IndexerTx) :
    poll currentBlock txHash (.ok p) indexer
        = (.ok ⟨currentBlock, p.confirmedRound, txHash, p.fee⟩, false) ∧
      ((⟨currentBlock, p.confirmedRound, txHash, p.fee⟩ : TxPollResult).txBlock = none
        ↔ p.confirmedRound = none) := by
  exact ⟨rfl, Iff.rfl⟩

/-- C2: on a recoverable miss from the primary node, poll consults the
fallback indexer: indexer success yields CONFIRMED with the indexer's own
current round as currentBlock and its confirmed round as txBlock, an indexer
failure propagates as an error, and a RecoverableMiss is never surfaced to
the caller on any input. -/
theorem poll_recoverable_miss_fallback :
    (∀ (currentBlock : Nat) (txHash : String) (t : IndexerTx),
      poll currentBlock txHash (.error .recoverableMiss) (.ok t)
        = (.ok ⟨t.currentRound, some t.confirmedRound, txHash, some t.fee⟩, true)) ∧
    (∀ (currentBlock : Nat) (txHash : String) (e : IndexerError),
      poll currentBlock txHash (.error .recoverableMiss) (.error e)
        = (.error e.toErrorKind, true)) ∧
    (∀ (currentBlock : Nat) (txHash : String)
        (node : Except NodeTxError TxPayload) (indexer : Except IndexerError IndexerTx),
      (poll currentBlock txHash node indexer).1 ≠ .error .RecoverableMiss) := by
  refine ⟨fun _ _ _ => rfl, fun _ _ _ => rfl, ?_⟩
  intro currentBlock txHash node indexer
  match node with
  | .ok p => simp [poll]
  | .error .recoverableMiss =>
    match indexer with
    | .ok t => simp [poll]
    | .error .networkError => simp [poll, IndexerError.toErrorKind]
    | .error .unknownError => simp [poll, IndexerError.toErrorKind]
  | .error .networkError => simp [poll]
  | .error .unknownError => simp [poll]

/-- C3: on any primary-node failure other than the recoverable miss, the
fallback indexer is never consulted and the failure is surfaced with its
classified kind: a transport-level failure yields NetworkError, a failure
with no discernible cause yields UnknownError, and the two kinds are
distinct; neither outcome is a PENDING or CONFIRMED success. -/
theorem poll_non_miss_failure :
    (∀ (currentBlock : Nat) (txHash : String) (indexer : Except IndexerError IndexerTx),
      poll currentBlock txHash (.error .networkError) indexer
        = (.error .NetworkError, false)) ∧
    (∀ (currentBlock : Nat) (txHash : String) (indexer : Except IndexerError IndexerTx),
      poll currentBlock txHash (.error .unknownError) indexer
        = (.error .UnknownError, false)) ∧
    ErrorKind.NetworkError ≠ ErrorKind.UnknownError := by
  exact ⟨fun _ _ _ => rfl, fun _ _ _ => rfl, by decide⟩

/-! ## Balance resolver

Modelled from the spec: the balance-resolution implementation is not among
the provided sources; only its endpoint tests are.  Section 4.4 of the spec
gives the algorithm; the collaborators are the Asset Directory and the
primary node's native- and asset-balance queries of section 6. -/

/-- An entry of the Asset Directory (spec section 3). -/
structure AssetRecord where
  symbol : String
  assetId : Nat
  decimals : Nat
deriving DecidableEq

/-- Failure modes of the primary node's asset-balance query. -/
inductive AssetQueryError where
  | holdingNotFound
  | networkError
deriving DecidableEq

/-- Collaborators of one balances call: the network's asset directory, its
native symbol, the native balance reported by the primary node, and the
per-asset balance query. -/
structure BalanceDeps where
  directory : List AssetRecord
  nativeSymbol : String
  nativeRaw : Nat
  assetQuery : Nat → Except AssetQueryError Nat

/-- Symbol lookup in the Asset Directory. -/
def lookupAsset (dir : List AssetRecord) (sym : String) : Option AssetRecord :=
  dir.find? (fun a => a.symbol == sym)

/-- Modelled from the spec: resolution of one requested symbol (section 4.4
steps 1-4).  An unknown symbol is a request error; the native asset uses the
native balance; a missing holding resolves to the zero balance; any other
asset-query failure is surfaced. -/
def resolveBalance (deps : BalanceDeps) (sym : String) : Except ErrorKind String :=
  match lookupAsset deps.directory sym with
  | none => .error .UnknownAsset
  | some a =>
    if a.symbol = deps.nativeSymbol then .ok (encode deps.nativeRaw a.decimals)
    else
      match deps.assetQuery a.assetId with
      | .ok raw => .ok (encode raw a.decimals)
      | .error .holdingNotFound => .ok (encode 0 a.decimals)
      | .error .networkError => .error .NetworkError

/-- Result of one balances call (spec section 3). -/
structure BalanceSet where
  network : String
  timestamp : Nat
  latency : Nat
  balances : List (String × String)
deriving DecidableEq

/-- Modelled from the spec: one balances call over a list of requested
symbols, all-or-nothing, stamped with the request start time and the
elapsed latency. -/
def balancesCall (deps : BalanceDeps) (network : String) (syms : List String)
    (startTime endTime : Nat) : Except ErrorKind BalanceSet :=
  match syms.mapM (fun sym => (resolveBalance deps sym).map (fun b => (sym, b))) with
  | .ok entries => .ok ⟨network, startTime, endTime - startTime, entries⟩
  | .error e => .error e

/-- C4: a native-symbol balance is the raw node balance encoded at the
native asset's decimal precision (raw 9000000 at 6 decimals is "9"), and
every successful BalanceSet carries the request timestamp and the elapsed
latency. -/
theorem balances_native_decoding :
    (∀ (deps : BalanceDeps) (sym : String) (a : AssetRecord),
      lookupAsset deps.directory sym = some a → a.symbol = deps.nativeSymbol →
        resolveBalance deps sym = .ok (encode deps.nativeRaw a.decimals)) ∧
    encode 9000000 6 = "9" ∧
    (∀ (deps : BalanceDeps) (network : String) (syms : List String)
        (startTime endTime : Nat) (bs : BalanceSet),
      balancesCall deps network syms startTime endTime = .ok bs →
        bs.timestamp = startTime ∧ bs.latency = endTime - startTime) := by
  refine ⟨?_, by decide, ?_⟩
  · intro deps sym a hfind hnative
    simp [resolveBalance, hfind, hnative]
  · intro deps network syms startTime endTime bs h
    simp only [balancesCall] at h
    split at h
    · cases h
      exact ⟨rfl, rfl⟩
    · cases h

def exDirectory : List AssetRecord :=
  [⟨"ALGO", 0, 6⟩, ⟨"USDC", 10458941, 6⟩]

def exDeps : BalanceDeps :=
  ⟨exDirectory, "ALGO", 9000000, fun _ => Except.error .holdingNotFound⟩

theorem balances_native_decoding_witness :
    resolveBalance exDeps "ALGO" = .ok (encode exDeps.nativeRaw 6) ∧
    encode 9000000 6 = "9" ∧
    ((⟨"testnet", 5, 7, [("ALGO", "9"), ("USDC", "0")]⟩ : BalanceSet).timestamp = 5 ∧
      (⟨"testnet", 5, 7, [("ALGO", "9"), ("USDC", "0")]⟩ : BalanceSet).latency = 12 - 5) := by
  have h := balances_native_decoding
  refine ⟨h.1 exDeps "ALGO" ⟨"ALGO", 0, 6⟩ (by decide) (by decide), h.2.1, ?_⟩
  exact h.2.2 exDeps "testnet" ["ALGO", "USDC"] 5 12
    ⟨"testnet", 5, 7, [("ALGO", "9"), ("USDC", "0")]⟩ (by rfl)

/-- C5: for a non-native token whose holding the chain reports as not found,
the resolved balance is the decimal zero string "0" as a successful outcome,
while any other asset-query failure is surfaced as an error. -/
theorem balances_holding_not_found_zero
    (deps : BalanceDeps) (sym : String) (a : AssetRecord)
    (hfind : lookupAsset deps.directory sym = some a)
    (hnn : a.symbol ≠ deps.nativeSymbol) :
    (deps.assetQuery a.assetId = .error .holdingNotFound →
      resolveBalance deps sym = .ok "0") ∧
    (deps.assetQuery a.assetId = .error .networkError →
      resolveBalance deps sym = .error .NetworkError) := by
  constructor
  · intro hq
    simp [resolveBalance, hfind, hnn, hq, encode_zero]
  · intro hq
    simp [resolveBalance, hfind, hnn, hq]

def exDepsNet : BalanceDeps :=
  ⟨exDirectory, "ALGO", 9000000, fun _ => Except.error .networkError⟩

theorem balances_holding_not_found_zero_witness :
    resolveBalance exDeps "USDC" = .ok "0" ∧
    resolveBalance exDepsNet "USDC" = .error .NetworkError := by
  refine ⟨?_, ?_⟩
  · exact (balances_holding_not_found_zero exDeps "USDC" ⟨"USDC", 10458941, 6⟩
      (by decide) (by decide)).1 (by rfl)
  · exact (balances_holding_not_found_zero exDepsNet "USDC" ⟨"USDC", 10458941, 6⟩
      (by decide) (by decide)).2 (by rfl)

/-! ## Chain instance registry and status aggregator

Modelled from the spec: the registry implementation is not among the
provided sources (only its route-level caller is).  Section 4.1 specifies a
single-flight cache keyed by NetworkKey: a first caller starts
initialization, concurrent callers await the same in-flight initialization,
success is retained, failure is not cached.  The model is a small-step
interleaving semantics: the scheduler picks events (run one requesting
task, or complete one in-flight initialization with success or failure). -/

/-- A (chain, network) pair identifying one connection instance. -/
abbrev NetworkKey := String × String

/-- The live connection object for one NetworkKey. -/
structure ChainInstance where
  chainName : String
  networkName : String
  instanceId : Nat
  currentBlock : Nat
  nativeCurrency : String
deriving DecidableEq

deriving instance DecidableEq for Except

/-- A registry cache slot: an in-flight initialization or a ready instance. -/
inductive Slot where
  | inFlight (initId : Nat)
  | ready (inst : ChainInstance)
deriving DecidableEq

/-- The state of one task calling getOrCreate. -/
inductive TaskState where
  | requesting (k : NetworkKey)
  | awaitingInit (k : NetworkKey) (initId : Nat)
  | done (k : NetworkKey) (r : Except ErrorKind ChainInstance)
deriving DecidableEq

/-- Registry state: the promise cache keyed by NetworkKey, the states of the
concurrent caller tasks, the next fresh initialization id, the log of
started initializations (the side effects), and the instances whose
initialization completed successfully in completion order. -/
structure RegState where
  cache : NetworkKey → Option Slot
  tasks : List (Nat × TaskState)
  nextInitId : Nat
  initStarts : List (Nat × NetworkKey)
  completedOrder : List ChainInstance

/-- Replace the state of the task with the given id. -/
def setTask (tasks : List (Nat × TaskState)) (tid : Nat) (st : TaskState) :
    List (Nat × TaskState) :=
  tasks.map fun t => if t.1 = tid then (t.1, st) else t

/-- Point update of the promise cache. -/
def updateCache (c : NetworkKey → Option Slot) (k : NetworkKey) (v : Option Slot) :
    NetworkKey → Option Slot :=
  fun k2 => if k2 = k then v else c k2

theorem updateCache_same (c : NetworkKey → Option Slot) (k : NetworkKey) (v : Option Slot) :
    updateCache c k v k = v := by
  simp [updateCache]

theorem updateCache_other (c : NetworkKey → Option Slot) (k : NetworkKey) (v : Option Slot)
    {k2 : NetworkKey} (h : k2 ≠ k) : updateCache c k v k2 = c k2 := by
  simp [updateCache, h]

/-- One requesting task performs its getOrCreate entry: a ready instance is
returned at once, an in-flight initialization is awaited, and an absent key
starts exactly one new initialization and awaits it. -/
def runTask (s : RegState) (tid : Nat) : RegState :=
  match s.tasks.find? (fun t => t.1 == tid) with
  | some (_, .requesting k) =>
    match s.cache k with
    | some (.ready inst) => { s with tasks := setTask s.tasks tid (.done k (.ok inst)) }
    | some (.inFlight i) => { s with tasks := setTask s.tasks tid (.awaitingInit k i) }
    | none =>
      { s with
        tasks := setTask s.tasks tid (.awaitingInit k s.nextInitId),
        cache := updateCache s.cache k (some (.inFlight s.nextInitId)),
        nextInitId := s.nextInitId + 1,
        initStarts := s.initStarts ++ [(s.nextInitId, k)] }
  | _ => s

/-- Deliver the outcome of initialization `i` to one task if it awaits it. -/
def finishOne (i : Nat) (r : Except ErrorKind ChainInstance) :
    Nat × TaskState → Nat × TaskState
  | (tid, .awaitingInit k2 j) =>
    if j = i then (tid, .done k2 r) else (tid, .awaitingInit k2 j)
  | t => t

/-- Deliver the outcome of initialization `i` to every task awaiting it. -/
def finishTasks (tasks : List (Nat × TaskState)) (i : Nat)
    (r : Except ErrorKind ChainInstance) : List (Nat × TaskState) :=
  tasks.map (finishOne i r)

/-- Scheduler events: run one requesting task, or complete the in-flight
initialization `i` of key `k` with success or failure. -/
inductive RegEvent where
  | run (tid : Nat)
  | finishOk (k : NetworkKey) (initId : Nat) (inst : ChainInstance)
  | finishErr (k : NetworkKey) (initId : Nat) (e : ErrorKind)

/-- One scheduler step.  A successful completion is retained in the cache
and appended to the completion order; a failed completion removes the key
from the cache so that a later call may retry. -/
def stepEvent (s : RegState) (e : RegEvent) : RegState :=
  match e with
  | .run tid => runTask s tid
  | .finishOk k i inst =>
    if s.cache k = some (.inFlight i) then
      { s with
        cache := updateCache s.cache k (some (.ready inst)),
        tasks := finishTasks s.tasks i (.ok inst),
        completedOrder := s.completedOrder ++ [inst] }
    else s
  | .finishErr k i err =>
    if s.cache k = some (.inFlight i) then
      { s with
        cache := updateCache s.cache k none,
        tasks := finishTasks s.tasks i (.error err) }
    else s

/-- Run a whole scheduled trace. -/
def runEvents (s : RegState) (tr : List RegEvent) : RegState := tr.foldl stepEvent s

/-- Initial state: an empty registry with a collection of caller tasks
about to request their keys. -/
def startState (ts : List (Nat × NetworkKey)) : RegState :=
  { cache := fun _ => none,
    tasks := ts.map (fun t => (t.1, .requesting t.2)),
    nextInitId := 0, initStarts := [], completedOrder := [] }

/-- The instances whose initialization completed successfully, in the
insertion order of successful completion. -/
def listInitialized (s : RegState) : List ChainInstance := s.completedOrder

/-- One entry of a status response (spec section 4.2). -/
structure StatusEntry where
  network : String
  currentBlockNumber : Nat
  nativeCurrency : String
deriving DecidableEq

/-- The status entry reported for one instance. -/
def instStatus (i : ChainInstance) : StatusEntry :=
  ⟨i.networkName, i.currentBlock, i.nativeCurrency⟩

/-- Modelled from the spec: the status aggregator (section 4.2).  With both
chain and network given it triggers getOrCreate through the registry
collaborator `create`; with no filter it reports one entry per
currently-initialized instance via listInitialized, leaving the registry
untouched. -/
def getStatus (create : RegState → NetworkKey → RegState × ChainInstance)
    (s : RegState) (chain : Option String) (network : Option String) :
    RegState × List StatusEntry :=
  match chain, network with
  | some c, some n =>
    let p := create s (c, n)
    (p.1, [instStatus p.2])
  | _, _ => (s, (listInitialized s).map instStatus)

/-- C6: a status call with neither chain nor network given returns one
status entry per currently-initialized instance (via listInitialized) and
leaves the registry state unchanged: no initialization is triggered and no
new connection is opened by the call. -/
theorem status_no_filter_frame
    (create : RegState → NetworkKey → RegState × ChainInstance) (s : RegState) :
    (getStatus create s none none).1 = s ∧
    (getStatus create s none none).2 = (listInitialized s).map instStatus ∧
    (getStatus create s none none).2.length = (listInitialized s).length := by
  refine ⟨rfl, rfl, ?_⟩
  simp [getStatus, listInitialized]

/-- Correspondence of the completion-order list with the cache: it holds
exactly the instances recorded as ready by a successful initialization. -/
def CompletedReady (s : RegState) : Prop :=
  (∀ inst ∈ s.completedOrder, ∃ k, s.cache k = some (.ready inst)) ∧
  (∀ k inst, s.cache k = some (.ready inst) → inst ∈ s.completedOrder)

theorem runTask_completedOrder (s : RegState) (tid : Nat) :
    (runTask s tid).completedOrder = s.completedOrder := by
  simp only [runTask]
  split
  · split <;> rfl
  · rfl

theorem runTask_cache_or (s : RegState) (tid : Nat) :
    (runTask s tid).cache = s.cache ∧ (runTask s tid).initStarts = s.initStarts ∨
    ∃ k, s.cache k = none ∧
      (runTask s tid).cache = updateCache s.cache k (some (.inFlight s.nextInitId)) ∧
      (runTask s tid).initStarts = s.initStarts ++ [(s.nextInitId, k)] := by
  simp only [runTask]
  split
  · next tid2 k heq =>
    split
    · exact Or.inl ⟨rfl, rfl⟩
    · exact Or.inl ⟨rfl, rfl⟩
    · next hc => exact Or.inr ⟨k, hc, rfl, rfl⟩
  · exact Or.inl ⟨rfl, rfl⟩

theorem stepEvent_run_eq (s : RegState) (tid : Nat) :
    stepEvent s (.run tid) = runTask s tid := rfl

theorem stepEvent_finishOk_fields (s : RegState) (k : NetworkKey) (i : Nat)
    (inst : ChainInstance) (hg : s.cache k = some (.inFlight i)) :
    (stepEvent s (.finishOk k i inst)).cache = updateCache s.cache k (some (.ready inst)) ∧
    (stepEvent s (.finishOk k i inst)).completedOrder = s.completedOrder ++ [inst] ∧
    (stepEvent s (.finishOk k i inst)).tasks = finishTasks s.tasks i (.ok inst) ∧
    (stepEvent s (.finishOk k i inst)).nextInitId = s.nextInitId ∧
    (stepEvent s (.finishOk k i inst)).initStarts = s.initStarts := by
  simp [stepEvent, hg]

theorem stepEvent_finishErr_fields (s : RegState) (k : NetworkKey) (i : Nat)
    (err : ErrorKind) (hg : s.cache k = some (.inFlight i)) :
    (stepEvent s (.finishErr k i err)).cache = updateCache s.cache k none ∧
    (stepEvent s (.finishErr k i err)).completedOrder = s.completedOrder ∧
    (stepEvent s (.finishErr k i err)).tasks = finishTasks s.tasks i (.error err) ∧
    (stepEvent s (.finishErr k i err)).nextInitId = s.nextInitId ∧
    (stepEvent s (.finishErr k i err)).initStarts = s.initStarts := by
  simp [stepEvent, hg]

theorem stepEvent_finishOk_skip (s : RegState) (k : NetworkKey) (i : Nat)
    (inst : ChainInstance) (hg : ¬s.cache k = some (.inFlight i)) :
    stepEvent s (.finishOk k i inst) = s := by
  simp [stepEvent, hg]

theorem stepEvent_finishErr_skip (s : RegState) (k : NetworkKey) (i : Nat)
    (err : ErrorKind) (hg : ¬s.cache k = some (.inFlight i)) :
    stepEvent s (.finishErr k i err) = s := by
  simp [stepEvent, hg]

theorem stepEvent_completedReady (s : RegState) (e : RegEvent) :
    CompletedReady s → CompletedReady (stepEvent s e) := by
  intro h
  cases e with
  | run tid =>
    rw [stepEvent_run_eq]
    rcases runTask_cache_or s tid with ⟨hc, _⟩ | ⟨k, hnone, hc, _⟩
    · constructor
      · intro inst hm
        rw [runTask_completedOrder] at hm
        obtain ⟨k2, hk2⟩ := h.1 inst hm
        exact ⟨k2, by rw [hc]; exact hk2⟩
      · intro k2 inst hk2
        rw [hc] at hk2
        rw [runTask_completedOrder]
        exact h.2 k2 inst hk2
    · constructor
      · intro inst hm
        rw [runTask_completedOrder] at hm
        obtain ⟨k2, hk2⟩ := h.1 inst hm
        have hne : k2 ≠ k := by
          intro hkk
          rw [hkk, hnone] at hk2
          cases hk2
        exact ⟨k2, by rw [hc, updateCache_other _ _ _ hne]; exact hk2⟩
      · intro k2 inst hk2
        rw [hc] at hk2
        rw [runTask_completedOrder]
        by_cases hkk : k2 = k
        · rw [hkk, updateCache_same] at hk2
          cases hk2
        · rw [updateCache_other _ _ _ hkk] at hk2
          exact h.2 k2 inst hk2
  | finishOk k i inst =>
    by_cases hg : s.cache k = some (.inFlight i)
    · obtain ⟨hcache, hcomp, _, _, _⟩ := stepEvent_finishOk_fields s k i inst hg
      constructor
      · intro inst2 hm
        rw [hcomp] at hm
        rcases List.mem_append.mp hm with hm | hm
        · obtain ⟨k2, hk2⟩ := h.1 inst2 hm
          have hne : k2 ≠ k := by
            intro hkk
            rw [hkk, hg] at hk2
            cases hk2
          exact ⟨k2, by rw [hcache, updateCache_other _ _ _ hne]; exact hk2⟩
        · have : inst2 = inst := by simpa using hm
          subst this
          exact ⟨k, by rw [hcache, updateCache_same]⟩
      · intro k2 inst2 hk2
        rw [hcache] at hk2
        rw [hcomp]
        by_cases hkk : k2 = k
        · rw [hkk, updateCache_same] at hk2
          have : inst = inst2 := by
            injection hk2 with h2
            injection h2
          subst this
          simp
        · rw [updateCache_other _ _ _ hkk] at hk2
          exact List.mem_append.mpr (Or.inl (h.2 k2 inst2 hk2))
    · rw [stepEvent_finishOk_skip s k i inst hg]
      exact h
  | finishErr k i err =>
    by_cases hg : s.cache k = some (.inFlight i)
    · obtain ⟨hcache, hcomp, _, _, _⟩ := stepEvent_finishErr_fields s k i err hg
      constructor
      · intro inst2 hm
        rw [hcomp] at hm
        obtain ⟨k2, hk2⟩ := h.1 inst2 hm
        have hne : k2 ≠ k := by
          intro hkk
          rw [hkk, hg] at hk2
          cases hk2
        exact ⟨k2, by rw [hcache, updateCache_other _ _ _ hne]; exact hk2⟩
      · intro k2 inst2 hk2
        rw [hcache] at hk2
        rw [hcomp]
        by_cases hkk : k2 = k
        · rw [hkk, updateCache_same] at hk2
          cases hk2
        · rw [updateCache_other _ _ _ hkk] at hk2
          exact h.2 k2 inst2 hk2
    · rw [stepEvent_finishErr_skip s k i err hg]
      exact h

theorem startState_completedReady (ts : List (Nat × NetworkKey)) :
    CompletedReady (startState ts) := by
  constructor
  · intro inst hm
    simp [startState] at hm
  · intro k inst hk
    simp [startState] at hk

theorem runEvents_completedReady (tr : List RegEvent) :
    ∀ s, CompletedReady s → CompletedReady (runEvents s tr) := by
  induction tr with
  | nil => intro s h; exact h
  | cons e tr ih =>
    intro s h
    exact ih _ (stepEvent_completedReady s e h)

theorem stepEvent_completed_append (s : RegState) (e : RegEvent) :
    ∃ l, (stepEvent s e).completedOrder = s.completedOrder ++ l := by
  cases e with
  | run tid =>
    exact ⟨[], by rw [show (stepEvent s (.run tid)).completedOrder = s.completedOrder from
      runTask_completedOrder s tid]; simp⟩
  | finishOk k i inst =>
    by_cases hg : s.cache k = some (.inFlight i)
    · exact ⟨[inst], by simp [stepEvent, hg]⟩
    · exact ⟨[], by simp [stepEvent, hg]⟩
  | finishErr k i err =>
    by_cases hg : s.cache k = some (.inFlight i)
    · exact ⟨[], by simp [stepEvent, hg]⟩
    · exact ⟨[], by simp [stepEvent, hg]⟩

/-- C7: for every trace of the registry model, listInitialized returns
exactly the instances recorded ready by a successfully completed
initialization, and the completion-order list only ever grows by appending,
so its order is the insertion order of successful completion. -/
theorem listInitialized_exactly_completed (ts : List (Nat × NetworkKey))
    (tr : List RegEvent) :
    (∀ inst, inst ∈ listInitialized (runEvents (startState ts) tr) ↔
      ∃ k, (runEvents (startState ts) tr).cache k = some (.ready inst)) ∧
    (∀ (s : RegState) (e : RegEvent),
      ∃ l, (stepEvent s e).completedOrder = s.completedOrder ++ l) := by
  constructor
  · intro inst
    have h := runEvents_completedReady tr (startState ts) (startState_completedReady ts)
    exact ⟨fun hm => h.1 inst hm, fun hex => h.2 hex.choose inst hex.choose_spec⟩
  · exact fun s e => stepEvent_completed_append s e

/-! ### Single-flight invariants of the registry -/

/-- Every task that observed a successful getOrCreate result for a key holds
exactly the instance recorded as ready for that key. -/
def TasksOkCache (s : RegState) : Prop :=
  ∀ t2 ∈ s.tasks, ∀ k i2, t2.2 = TaskState.done k (.ok i2) → s.cache k = some (.ready i2)

/-- Every task awaiting an initialization does so for the initialization
currently in flight for its key. -/
def TasksAwaitCache (s : RegState) : Prop :=
  ∀ t2 ∈ s.tasks, ∀ k j, t2.2 = TaskState.awaitingInit k j → s.cache k = some (.inFlight j)

/-- An initialization id is in flight for at most one key. -/
def FlightUnique (s : RegState) : Prop :=
  ∀ k1 k2 j, s.cache k1 = some (.inFlight j) → s.cache k2 = some (.inFlight j) → k1 = k2

/-- Every in-flight initialization id is below the fresh-id counter. -/
def FlightFresh (s : RegState) : Prop :=
  ∀ k j, s.cache k = some (.inFlight j) → j < s.nextInitId

def RegInv (s : RegState) : Prop :=
  TasksOkCache s ∧ TasksAwaitCache s ∧ FlightUnique s ∧ FlightFresh s

/-- Every recorded initialization start is for a key still in the cache
(this fails only after a failed completion), and no key has more than one
recorded initialization start. -/
def StartsInv (s : RegState) : Prop :=
  (∀ p ∈ s.initStarts, (s.cache p.2).isSome = true) ∧
  ∀ k, (s.initStarts.filter (fun p => decide (p.2 = k))).length ≤ 1

theorem mem_setTask {tasks : List (Nat × TaskState)} {tid : Nat} {st : TaskState}
    {t2 : Nat × TaskState} (h : t2 ∈ setTask tasks tid st) :
    t2 ∈ tasks ∨ t2.2 = st := by
  simp only [setTask] at h
  obtain ⟨t, ht, hf⟩ := List.mem_map.mp h
  by_cases htid : t.1 = tid
  · rw [if_pos htid] at hf
    right
    rw [← hf]
  · rw [if_neg htid] at hf
    left
    rw [← hf]
    exact ht

theorem mem_finishTasks {tasks : List (Nat × TaskState)} {i : Nat}
    {r : Except ErrorKind ChainInstance} {t2 : Nat × TaskState}
    (h : t2 ∈ finishTasks tasks i r) :
    (t2 ∈ tasks ∧ ∀ k2, t2.2 ≠ TaskState.awaitingInit k2 i) ∨
    ∃ t ∈ tasks, ∃ k2, t.2 = TaskState.awaitingInit k2 i ∧ t2 = (t.1, .done k2 r) := by
  simp only [finishTasks] at h
  obtain ⟨t, ht, hf⟩ := List.mem_map.mp h
  obtain ⟨tid, tst⟩ := t
  cases tst with
  | requesting k2 =>
    simp only [finishOne] at hf
    refine Or.inl ⟨hf ▸ ht, ?_⟩
    intro k3
    rw [← hf]
    intro hc
    cases hc
  | awaitingInit k2 j =>
    simp only [finishOne] at hf
    by_cases hj : j = i
    · rw [if_pos hj] at hf
      exact Or.inr ⟨(tid, .awaitingInit k2 j), ht, k2, by rw [hj], hf.symm⟩
    · rw [if_neg hj] at hf
      refine Or.inl ⟨hf ▸ ht, ?_⟩
      intro k3
      rw [← hf]
      intro hc
      injection hc with h1 h2
      exact hj h2
  | done k2 r2 =>
    simp only [finishOne] at hf
    refine Or.inl ⟨hf ▸ ht, ?_⟩
    intro k3
    rw [← hf]
    intro hc
    cases hc

theorem runTask_cases (s : RegState) (tid : Nat) :
    runTask s tid = s ∨
    (∃ k inst, s.cache k = some (.ready inst) ∧
      runTask s tid = { s with tasks := setTask s.tasks tid (.done k (.ok inst)) }) ∨
    (∃ k i, s.cache k = some (.inFlight i) ∧
      runTask s tid = { s with tasks := setTask s.tasks tid (.awaitingInit k i) }) ∨
    (∃ k, s.cache k = none ∧
      runTask s tid = { s with
        tasks := setTask s.tasks tid (.awaitingInit k s.nextInitId),
        cache := updateCache s.cache k (some (.inFlight s.nextInitId)),
        nextInitId := s.nextInitId + 1,
        initStarts := s.initStarts ++ [(s.nextInitId, k)] }) := by
  simp only [runTask]
  split
  · next tid2 k heq =>
    split
    · next inst hc => exact Or.inr (Or.inl ⟨k, inst, hc, rfl⟩)
    · next i hc => exact Or.inr (Or.inr (Or.inl ⟨k, i, hc, rfl⟩))
    · next hc => exact Or.inr (Or.inr (Or.inr ⟨k, hc, rfl⟩))
  · exact Or.inl rfl

theorem stepEvent_regInv (s : RegState) (e : RegEvent) (h : RegInv s) :
    RegInv (stepEvent s e) := by
  obtain ⟨hok, hawait, huniq, hfresh⟩ := h
  cases e with
  | run tid =>
    rw [stepEvent_run_eq]
    rcases runTask_cases s tid with heq | ⟨k, inst, hc, heq⟩ | ⟨k, i, hc, heq⟩ | ⟨k, hc, heq⟩
    · rw [heq]
      exact ⟨hok, hawait, huniq, hfresh⟩
    · have hcc : (runTask s tid).cache = s.cache := by rw [heq]
      have htt : (runTask s tid).tasks = setTask s.tasks tid (.done k (.ok inst)) := by
        rw [heq]
      have hnn : (runTask s tid).nextInitId = s.nextInitId := by rw [heq]
      refine ⟨?_, ?_, ?_, ?_⟩
      · intro t2 ht2 k2 i2 h2
        rw [htt] at ht2
        rw [hcc]
        rcases mem_setTask ht2 with hm | hm
        · exact hok t2 hm k2 i2 h2
        · rw [hm] at h2
          injection h2 with hk2 hi2
          injection hi2 with hi2
          rw [← hk2, ← hi2]
          exact hc
      · intro t2 ht2 k2 j h2
        rw [htt] at ht2
        rw [hcc]
        rcases mem_setTask ht2 with hm | hm
        · exact hawait t2 hm k2 j h2
        · rw [hm] at h2
          cases h2
      · intro k1 k2 j h1 h2
        rw [hcc] at h1 h2
        exact huniq k1 k2 j h1 h2
      · intro k2 j h2
        rw [hcc] at h2
        rw [hnn]
        exact hfresh k2 j h2
    · have hcc : (runTask s tid).cache = s.cache := by rw [heq]
      have htt : (runTask s tid).tasks = setTask s.tasks tid (.awaitingInit k i) := by
        rw [heq]
      have hnn : (runTask s tid).nextInitId = s.nextInitId := by rw [heq]
      refine ⟨?_, ?_, ?_, ?_⟩
      · intro t2 ht2 k2 i2 h2
        rw [htt] at ht2
        rw [hcc]
        rcases mem_setTask ht2 with hm | hm
        · exact hok t2 hm k2 i2 h2
        · rw [hm] at h2
          cases h2
      · intro t2 ht2 k2 j h2
        rw [htt] at ht2
        rw [hcc]
        rcases mem_setTask ht2 with hm | hm
        · exact hawait t2 hm k2 j h2
        · rw [hm] at h2
          injection h2 with hk2 hj
          rw [← hk2, ← hj]
          exact hc
      · intro k1 k2 j h1 h2
        rw [hcc] at h1 h2
        exact huniq k1 k2 j h1 h2
      · intro k2 j h2
        rw [hcc] at h2
        rw [hnn]
        exact hfresh k2 j h2
    · have hcc : (runTask s tid).cache = updateCache s.cache k (some (.inFlight s.nextInitId)) := by
        rw [heq]
      have htt : (runTask s tid).tasks = setTask s.tasks tid (.awaitingInit k s.nextInitId) := by
        rw [heq]
      have hnn : (runTask s tid).nextInitId = s.nextInitId + 1 := by rw [heq]
      refine ⟨?_, ?_, ?_, ?_⟩
      · intro t2 ht2 k2 i2 h2
        rw [htt] at ht2
        rw [hcc]
        rcases mem_setTask ht2 with hm | hm
        · have hbase := hok t2 hm k2 i2 h2
          have hne : k2 ≠ k := by
            intro hkk
            rw [hkk, hc] at hbase
            cases hbase
          rw [updateCache_other _ _ _ hne]
          exact hbase
        · rw [hm] at h2
          cases h2
      · intro t2 ht2 k2 j h2
        rw [htt] at ht2
        rw [hcc]
        rcases mem_setTask ht2 with hm | hm
        · have hbase := hawait t2 hm k2 j h2
          have hne : k2 ≠ k := by
            intro hkk
            rw [hkk, hc] at hbase
            cases hbase
          rw [updateCache_other _ _ _ hne]
          exact hbase
        · rw [hm] at h2
          injection h2 with hk2 hj
          rw [← hk2, ← hj]
          rw [updateCache_same]
      · intro k1 k2 j h1 h2
        rw [hcc] at h1 h2
        by_cases hk1 : k1 = k <;> by_cases hk2 : k2 = k
        · rw [hk1, hk2]
        · rw [hk1, updateCache_same] at h1
          rw [updateCache_other _ _ _ hk2] at h2
          injection h1 with h1'
          injection h1' with h1''
          have := hfresh k2 j h2
          omega
        · rw [hk2, updateCache_same] at h2
          rw [updateCache_other _ _ _ hk1] at h1
          injection h2 with h2'
          injection h2' with h2''
          have := hfresh k1 j h1
          omega
        · rw [updateCache_other _ _ _ hk1] at h1
          rw [updateCache_other _ _ _ hk2] at h2
          exact huniq k1 k2 j h1 h2
      · intro k2 j h2
        rw [hcc] at h2
        rw [hnn]
        by_cases hk2 : k2 = k
        · rw [hk2, updateCache_same] at h2
          injection h2 with h2'
          injection h2' with h2''
          omega
        · rw [updateCache_other _ _ _ hk2] at h2
          have := hfresh k2 j h2
          omega
  | finishOk k i inst =>
    by_cases hg : s.cache k = some (.inFlight i)
    · obtain ⟨hcc, hco, htt, hnn, hst⟩ := stepEvent_finishOk_fields s k i inst hg
      refine ⟨?_, ?_, ?_, ?_⟩
      · intro t2 ht2 k2 i2 h2
        rw [htt] at ht2
        rw [hcc]
        rcases mem_finishTasks ht2 with ⟨hm, _⟩ | ⟨t, ht, k3, haw, ht2eq⟩
        · have hbase := hok t2 hm k2 i2 h2
          have hne : k2 ≠ k := by
            intro hkk
            rw [hkk, hg] at hbase
            simp at hbase
          rw [updateCache_other _ _ _ hne]
          exact hbase
        · rw [ht2eq] at h2
          injection h2 with hk3 hr
          injection hr with hr2
          have hk3c := hawait t ht k3 i haw
          have hkk : k3 = k := huniq k3 k i hk3c hg
          rw [← hk3, hkk, updateCache_same, hr2]
      · intro t2 ht2 k2 j h2
        rw [htt] at ht2
        rw [hcc]
        rcases mem_finishTasks ht2 with ⟨hm, hnot⟩ | ⟨t, ht, k3, haw, ht2eq⟩
        · have hbase := hawait t2 hm k2 j h2
          have hji : j ≠ i := by
            intro hji
            exact hnot k2 (by rw [h2, hji])
          have hne : k2 ≠ k := by
            intro hkk
            rw [hkk, hg] at hbase
            injection hbase with hb
            injection hb with hb2
            exact hji hb2.symm
          rw [updateCache_other _ _ _ hne]
          exact hbase
        · rw [ht2eq] at h2
          cases h2
      · intro k1 k2 j h1 h2
        rw [hcc] at h1 h2
        by_cases hk1 : k1 = k <;> by_cases hk2 : k2 = k
        · rw [hk1, hk2]
        · rw [hk1, updateCache_same] at h1
          simp at h1
        · rw [hk2, updateCache_same] at h2
          simp at h2
        · rw [updateCache_other _ _ _ hk1] at h1
          rw [updateCache_other _ _ _ hk2] at h2
          exact huniq k1 k2 j h1 h2
      · intro k2 j h2
        rw [hcc] at h2
        rw [hnn]
        by_cases hk2 : k2 = k
        · rw [hk2, updateCache_same] at h2
          simp at h2
        · rw [updateCache_other _ _ _ hk2] at h2
          exact hfresh k2 j h2
    · rw [stepEvent_finishOk_skip s k i inst hg]
      exact ⟨hok, hawait, huniq, hfresh⟩
  | finishErr k i err =>
    by_cases hg : s.cache k = some (.inFlight i)
    · obtain ⟨hcc, hco, htt, hnn, hst⟩ := stepEvent_finishErr_fields s k i err hg
      refine ⟨?_, ?_, ?_, ?_⟩
      · intro t2 ht2 k2 i2 h2
        rw [htt] at ht2
        rw [hcc]
        rcases mem_finishTasks ht2 with ⟨hm, _⟩ | ⟨t, ht, k3, haw, ht2eq⟩
        · have hbase := hok t2 hm k2 i2 h2
          have hne : k2 ≠ k := by
            intro hkk
            rw [hkk, hg] at hbase
            simp at hbase
          rw [updateCache_other _ _ _ hne]
          exact hbase
        · rw [ht2eq] at h2
          injection h2 with hk3 hr
          cases hr
      · intro t2 ht2 k2 j h2
        rw [htt] at ht2
        rw [hcc]
        rcases mem_finishTasks ht2 with ⟨hm, hnot⟩ | ⟨t, ht, k3, haw, ht2eq⟩
        · have hbase := hawait t2 hm k2 j h2
          have hji : j ≠ i := by
            intro hji
            exact hnot k2 (by rw [h2, hji])
          have hne : k2 ≠ k := by
            intro hkk
            rw [hkk, hg] at hbase
            injection hbase with hb
            injection hb with hb2
            exact hji hb2.symm
          rw [updateCache_other _ _ _ hne]
          exact hbase
        · rw [ht2eq] at h2
          cases h2
      · intro k1 k2 j h1 h2
        rw [hcc] at h1 h2
        by_cases hk1 : k1 = k <;> by_cases hk2 : k2 = k
        · rw [hk1, hk2]
        · rw [hk1, updateCache_same] at h1
          cases h1
        · rw [hk2, updateCache_same] at h2
          cases h2
        · rw [updateCache_other _ _ _ hk1] at h1
          rw [updateCache_other _ _ _ hk2] at h2
          exact huniq k1 k2 j h1 h2
      · intro k2 j h2
        rw [hcc] at h2
        rw [hnn]
        by_cases hk2 : k2 = k
        · rw [hk2, updateCache_same] at h2
          cases h2
        · rw [updateCache_other _ _ _ hk2] at h2
          exact hfresh k2 j h2
    · rw [stepEvent_finishErr_skip s k i err hg]
      exact ⟨hok, hawait, huniq, hfresh⟩

/-- Events that are not a failed initialization completion. -/
def notErrEvent : RegEvent → Bool
  | .finishErr _ _ _ => false
  | _ => true

theorem stepEvent_startsInv (s : RegState) (e : RegEvent)
    (he : notErrEvent e = true) (h : StartsInv s) : StartsInv (stepEvent s e) := by
  obtain ⟨hcac, honce⟩ := h
  cases e with
  | run tid =>
    rw [stepEvent_run_eq]
    rcases runTask_cache_or s tid with ⟨hcc, hss⟩ | ⟨k, hnone, hcc, hss⟩
    · constructor
      · intro p hp
        rw [hss] at hp
        rw [hcc]
        exact hcac p hp
      · intro k2
        rw [hss]
        exact honce k2
    · constructor
      · intro p hp
        rw [hss] at hp
        rw [hcc]
        rcases List.mem_append.mp hp with hp | hp
        · by_cases hpk : p.2 = k
          · rw [hpk, updateCache_same]
            rfl
          · rw [updateCache_other _ _ _ hpk]
            exact hcac p hp
        · have hpe : p = (s.nextInitId, k) := by simpa using hp
          rw [hpe]
          show (updateCache s.cache k (some (.inFlight s.nextInitId)) k).isSome = true
          rw [updateCache_same]
          rfl
      · intro k2
        rw [hss, List.filter_append, List.length_append]
        by_cases hk2 : k2 = k
        · have hfil : s.initStarts.filter (fun p => decide (p.2 = k2)) = [] := by
            rw [List.filter_eq_nil_iff]
            intro p hp
            simp only [decide_eq_true_eq]
            intro hpk
            have hsome := hcac p hp
            rw [hpk, hk2, hnone] at hsome
            simp at hsome
          rw [hfil, List.filter_singleton]
          cases hdec : decide ((s.nextInitId, k).2 = k2) <;> simp [hdec]
        · have h2 : (([(s.nextInitId, k)] : List (Nat × NetworkKey)).filter
              (fun p => decide (p.2 = k2))).length = 0 := by
            simp
            intro hc
            exact hk2 hc.symm
          have := honce k2
          omega
  | finishOk k i inst =>
    by_cases hg : s.cache k = some (.inFlight i)
    · obtain ⟨hcc, hco, htt, hnn, hst⟩ := stepEvent_finishOk_fields s k i inst hg
      constructor
      · intro p hp
        rw [hst] at hp
        rw [hcc]
        by_cases hpk : p.2 = k
        · rw [hpk, updateCache_same]
          rfl
        · rw [updateCache_other _ _ _ hpk]
          exact hcac p hp
      · intro k2
        rw [hst]
        exact honce k2
    · rw [stepEvent_finishOk_skip s k i inst hg]
      exact ⟨hcac, honce⟩
  | finishErr k i err =>
    simp [notErrEvent] at he

theorem startState_regInv (ts : List (Nat × NetworkKey)) : RegInv (startState ts) := by
  refine ⟨?_, ?_, ?_, ?_⟩
  · intro t2 ht2 k i2 h2
    simp only [startState] at ht2
    obtain ⟨t, _, hf⟩ := List.mem_map.mp ht2
    rw [← hf] at h2
    cases h2
  · intro t2 ht2 k j h2
    simp only [startState] at ht2
    obtain ⟨t, _, hf⟩ := List.mem_map.mp ht2
    rw [← hf] at h2
    cases h2
  · intro k1 k2 j h1 h2
    simp [startState] at h1
  · intro k j h1
    simp [startState] at h1

theorem startState_startsInv (ts : List (Nat × NetworkKey)) :
    StartsInv (startState ts) := by
  constructor
  · intro p hp
    simp [startState] at hp
  · intro k
    simp [startState]

theorem runEvents_regInv (tr : List RegEvent) :
    ∀ s, RegInv s → RegInv (runEvents s tr) := by
  induction tr with
  | nil => intro s h; exact h
  | cons e tr ih =>
    intro s h
    exact ih _ (stepEvent_regInv s e h)

theorem runEvents_startsInv (tr : List RegEvent) :
    ∀ s, tr.all notErrEvent = true → StartsInv s → StartsInv (runEvents s tr) := by
  induction tr with
  | nil => intro s _ h; exact h
  | cons e tr ih =>
    intro s hall h
    rw [List.all_cons, Bool.and_eq_true] at hall
    exact ih _ hall.2 (stepEvent_startsInv s e hall.1 h)

/-- C9: in the registry model, (i) a trace without failed initializations
records at most one initialization start per NetworkKey no matter how many
concurrent tasks request it, (ii) any two tasks that observed a successful
getOrCreate result for the same key observed the same ChainInstance, and
(iii) a failed initialization removes its key from the cache, so a later
call may retry instead of seeing a cached failure. -/
theorem getOrCreate_single_flight (ts : List (Nat × NetworkKey)) (tr : List RegEvent)
    (s : RegState) (hs : s = runEvents (startState ts) tr) :
    (tr.all notErrEvent = true →
      ∀ k, (s.initStarts.filter (fun p => decide (p.2 = k))).length ≤ 1) ∧
    (∀ t1 ∈ s.tasks, ∀ t2 ∈ s.tasks, ∀ k i1 i2,
      t1.2 = TaskState.done k (.ok i1) → t2.2 = TaskState.done k (.ok i2) → i1 = i2) ∧
    (∀ (s2 : RegState) (k : NetworkKey) (i : Nat) (err : ErrorKind),
      s2.cache k = some (.inFlight i) →
        (stepEvent s2 (.finishErr k i err)).cache k = none) := by
  subst hs
  refine ⟨?_, ?_, ?_⟩
  · intro hall k
    exact (runEvents_startsInv tr (startState ts) hall (startState_startsInv ts)).2 k
  · intro t1 ht1 t2 ht2 k i1 i2 h1 h2
    have hinv := runEvents_regInv tr (startState ts) (startState_regInv ts)
    have hc1 := hinv.1 t1 ht1 k i1 h1
    have hc2 := hinv.1 t2 ht2 k i2 h2
    rw [hc1] at hc2
    exact Slot.ready.inj (Option.some.inj hc2)
  · intro s2 k i err hg
    have := (stepEvent_finishErr_fields s2 k i err hg).1
    rw [this, updateCache_same]

def exKey : NetworkKey := ("algorand", "testnet")

def exInst : ChainInstance := ⟨"algorand", "testnet", 0, 100, "ALGO"⟩

def exTasks : List (Nat × NetworkKey) := [(0, exKey), (1, exKey)]

def exTrace : List RegEvent := [.run 0, .run 1, .finishOk exKey 0 exInst]

theorem getOrCreate_single_flight_witness :
    (((runEvents (startState exTasks) exTrace).initStarts.filter
        (fun p => decide (p.2 = exKey))).length ≤ 1) ∧
    exInst = exInst ∧
    (stepEvent (runEvents (startState exTasks) [RegEvent.run 0])
        (.finishErr exKey 0 .NetworkError)).cache exKey = none := by
  have h := getOrCreate_single_flight exTasks exTrace
    (runEvents (startState exTasks) exTrace) rfl
  refine ⟨h.1 (by decide) exKey, ?_, ?_⟩
  · exact h.2.1 (0, TaskState.done exKey (.ok exInst)) (by decide)
      (1, TaskState.done exKey (.ok exInst)) (by decide) exKey exInst exInst rfl rfl
  · exact h.2.2 (runEvents (startState exTasks) [RegEvent.run 0]) exKey 0
      ErrorKind.NetworkError (by decide)

/-! ## Generic network routes

Embedded from src/gateway/src/network/network.routes.ts.  The balances
handler calls validateEthereumBalanceRequest (imported from the ethereum
chain's validators module) and then ethereumControllers.balances on the
instance returned by getInitializedChain cast to Ethereumish.  The poll
handler calls validatePollRequest, which is mkRequestValidator applied to
the single validator validateTxHash imported from the shared validators
service, and then ethereumControllers.poll on the instance cast to
Ethereumish.  Neither handler branches on the chain named in the body. -/

/-- The request validators referenced by the network routes, identified by
their defining module. -/
inductive ValidatorId where
  | ethereumBalanceRequest
  | ethereumChain
  | ethereumNetwork
  | sharedTxHash
deriving DecidableEq

/-- Whether a validator is Ethereum-specific, i.e. defined in the ethereum
chain's validators module rather than in the shared validators service. -/
def ValidatorId.isEthereumSpecific : ValidatorId → Bool
  | .ethereumBalanceRequest => true
  | .ethereumChain => true
  | .ethereumNetwork => true
  | .sharedTxHash => false

/-- The controllers a network route can dispatch to. -/
inductive ControllerId where
  | ethereumBalances
  | ethereumPoll
deriving DecidableEq

/-- The interface a handler casts the chain instance to. -/
inductive CastTarget where
  | ethereumish
deriving DecidableEq

/-- Body of a POST /network/balances request. -/
structure BalanceRequestBody where
  chain : String
  network : String
  address : String
  tokenSymbols : List String
deriving DecidableEq

/-- Body of a POST /network/poll request. -/
structure PollRequestBody where
  chain : String
  network : String
  txHash : String
deriving DecidableEq

/-- What a route handler does with a request: the validators it runs, the
chain and network strings it passes to getInitializedChain, the interface
it casts the returned instance to, and the controller it dispatches to. -/
structure RouteDispatch where
  validators : List ValidatorId
  chainArg : String
  networkArg : String
  castTo : CastTarget
  controller : ControllerId
deriving DecidableEq

/-- The POST /network/balances handler of network.routes.ts: it validates
the body with validateEthereumBalanceRequest, obtains the chain instance
for the body's chain and network cast to Ethereumish, and dispatches to
ethereumControllers.balances. -/
def networkBalancesRoute (req : BalanceRequestBody) : RouteDispatch :=
  { validators := [.ethereumBalanceRequest]
    chainArg := req.chain
    networkArg := req.network
    castTo := .ethereumish
    controller := .ethereumBalances }

/-- validatePollRequest of network.routes.ts: mkRequestValidator applied to
the single validator validateTxHash from the shared validators service. -/
def validatePollRequest : List ValidatorId := [.sharedTxHash]

/-- The POST /network/poll handler of network.routes.ts: it validates the
body with validatePollRequest, obtains the chain instance for the body's
chain and network cast to Ethereumish, and dispatches to
ethereumControllers.poll. -/
def networkPollRoute (req : PollRequestBody) : RouteDispatch :=
  { validators := validatePollRequest
    chainArg := req.chain
    networkArg := req.network
    castTo := .ethereumish
    controller := .ethereumPoll }

/-- C10 counterexample: on a concrete poll request naming the algorand
chain, the generic poll handler's validator list is not made of
Ethereum-specific validators: its only validator is the chain-agnostic
txHash validator from the shared validators service, refuting the claim
that both generic endpoints validate with the Ethereum-specific
validators. -/
theorem network_poll_validator_not_ethereum_specific :
    ((networkPollRoute ⟨"algorand", "testnet", "0xabc"⟩).validators.all
      ValidatorId.isEthereumSpecific) = false := by
  decide

/-- C10 amended: for every request, regardless of the chain named in the
body, the generic balances route validates with the Ethereum-specific
balance-request validator while the generic poll route validates with the
chain-agnostic shared txHash validator, and both dispatch to the Ethereum
controllers with the chain instance cast to the Ethereum interface; the
validators, cast and controller never depend on the chain parameter. -/
theorem network_routes_ethereum_dispatch :
    (∀ req : BalanceRequestBody,
      (networkBalancesRoute req).validators = [.ethereumBalanceRequest] ∧
      ((networkBalancesRoute req).validators.all ValidatorId.isEthereumSpecific) = true ∧
      (networkBalancesRoute req).controller = .ethereumBalances ∧
      (networkBalancesRoute req).castTo = .ethereumish) ∧
    (∀ req : PollRequestBody,
      (networkPollRoute req).validators = [.sharedTxHash] ∧
      (networkPollRoute req).controller = .ethereumPoll ∧
      (networkPollRoute req).castTo = .ethereumish) ∧
    (∀ r1 r2 : BalanceRequestBody,
      (networkBalancesRoute r1).validators = (networkBalancesRoute r2).validators ∧
      (networkBalancesRoute r1).controller = (networkBalancesRoute r2).controller ∧
      (networkBalancesRoute r1).castTo = (networkBalancesRoute r2).castTo) ∧
    (∀ r1 r2 : PollRequestBody,
      (networkPollRoute r1).validators = (networkPollRoute r2).validators ∧
      (networkPollRoute r1).controller = (networkPollRoute r2).controller ∧
      (networkPollRoute r1).castTo = (networkPollRoute r2).castTo) := by
  exact ⟨fun _ => ⟨rfl, rfl, rfl, rfl⟩, fun _ => ⟨rfl, rfl, rfl⟩,
    fun _ _ => ⟨rfl, rfl, rfl⟩, fun _ _ => ⟨rfl, rfl, rfl⟩⟩

end Gateway
